import Mathlib

/-!
Verification development for the distributed sparse-matrix assembly engine
in `fipy/matrices/trilinosMatrix.py`.

The embedding works over an arbitrary commutative ring `α` of matrix values
(the Python code uses float64; every concrete computation below is carried
out with exact values, instantiating `α` at `ℤ`, `ℚ` or `ℝ`).

The Epetra sparse matrix backing `_TrilinosMatrixBase` is modelled as an
association list of `(row, col) ↦ value` entries together with an insertion
log (used while the matrix is unfilled) and the `Filled` / `StorageOptimized`
flags.  Epetra primitive operations (`InsertGlobalValues`,
`SumIntoGlobalValues`, `ReplaceGlobalValues`, `FillComplete`,
`EpetraExt.Add`, `Scale`, vector `Import`) are modelled from the spec
(sections 4.2 and 4.3): insertion before fill-complete appends to the log
(duplicates summed at fill-complete), accumulation and replacement after
fill-complete only touch existing structural positions, drop values aimed at
missing positions and report a nonzero error code that the Python wrapper
turns into exactly one warning.
-/

/-- Sparse matrix entry: a `(row, col)` position paired with a value. -/
abbrev MatEntry (α : Type) := (ℕ × ℕ) × α

/-- Value stored at position `p` in an association list: the first entry whose
position is `p` (0 when absent).  Reachable matrix states never hold two
entries at the same position, so first-match lookup agrees with Epetra. -/
def getV {α : Type} [CommRing α] : List (MatEntry α) → ℕ × ℕ → α
  | [], _ => 0
  | e :: r, p => if e.1 = p then e.2 else getV r p

/-- Sum of all values recorded at position `p` in a list of entries. -/
def entSum {α : Type} [CommRing α] (l : List (MatEntry α)) (p : ℕ × ℕ) : α :=
  l.foldr (fun e a => if e.1 = p then e.2 + a else a) 0

/-- Position `p` has an entry in the association list. -/
def memKey {α : Type} (l : List (MatEntry α)) (p : ℕ × ℕ) : Prop :=
  p ∈ l.map Prod.fst

instance {α : Type} (l : List (MatEntry α)) (p : ℕ × ℕ) :
    Decidable (memKey l p) := by
  unfold memKey; infer_instance

/-- Accumulate one entry into an association list: add to the first entry at
the same position, or append a fresh entry when the position is new.  This is
how `FillComplete` combines repeated unfilled insertions at one position. -/
def addEntry {α : Type} [CommRing α] : List (MatEntry α) → MatEntry α → List (MatEntry α)
  | [], e => [e]
  | f :: r, e => if f.1 = e.1 then (f.1, f.2 + e.2) :: r else f :: addEntry r e

/-- Collapse an insertion log into the stored entry list, summing duplicates
(the structural pattern a `FillComplete` call produces). -/
def buildEntries {α : Type} [CommRing α] (log : List (MatEntry α)) : List (MatEntry α) :=
  log.foldl addEntry []

/-- Add `v` into the existing entry at `p`; the returned flag records whether
a structural entry was found (false means the value was dropped).  Models one
element of `SumIntoGlobalValues` on a fill-completed matrix. -/
def sumEntry {α : Type} [CommRing α] :
    List (MatEntry α) → ℕ × ℕ → α → List (MatEntry α) × Bool
  | [], _, _ => ([], false)
  | f :: r, p, v =>
    if f.1 = p then ((f.1, f.2 + v) :: r, true)
    else
      let t := sumEntry r p v
      (f :: t.1, t.2)

/-- Overwrite the existing entry at `p` with `v`; the flag records whether a
structural entry was found (false means the value was dropped).  Models one
element of `ReplaceGlobalValues` on a fill-completed matrix. -/
def repEntry {α : Type} [CommRing α] :
    List (MatEntry α) → ℕ × ℕ → α → List (MatEntry α) × Bool
  | [], _, _ => ([], false)
  | f :: r, p, v =>
    if f.1 = p then ((f.1, v) :: r, true)
    else
      let t := repEntry r p v
      (f :: t.1, t.2)

/-- Modelled from the spec: `SumIntoGlobalValues` on a fill-completed matrix
adds each batch value into its existing structural position, drops values
whose position has no structural entry, and returns a nonzero code (here the
Boolean) exactly when at least one value was dropped. -/
def sumBatch {α : Type} [CommRing α] :
    List (MatEntry α) → List (MatEntry α) → List (MatEntry α) × Bool
  | l, [] => (l, false)
  | l, e :: b =>
    let t := sumEntry l e.1 e.2
    let rest := sumBatch t.1 b
    (rest.1, !t.2 || rest.2)

/-- Modelled from the spec: `ReplaceGlobalValues` on a fill-completed matrix
overwrites each existing structural position, drops values aimed at missing
positions, and reports a nonzero code exactly when something was dropped. -/
def repBatch {α : Type} [CommRing α] :
    List (MatEntry α) → List (MatEntry α) → List (MatEntry α) × Bool
  | l, [] => (l, false)
  | l, e :: b =>
    let t := repEntry l e.1 e.2
    let rest := repBatch t.1 b
    (rest.1, !t.2 || rest.2)

/-- State of an `Epetra.CrsMatrix` as observed through the wrapper: the
fill-lifecycle flag, the storage-optimization flag, the pre-fill insertion
log and the post-fill stored entries. -/
structure Crs (α : Type) where
  filled : Bool
  optimized : Bool
  log : List (MatEntry α)
  entries : List (MatEntry α)
deriving Repr

/-- Freshly constructed matrix: unfilled, unoptimized, no entries. -/
def emptyCrs {α : Type} : Crs α := ⟨false, false, [], []⟩

/-- Modelled from the spec: `FillComplete` freezes the structure, collapsing
the insertion log (summing values inserted repeatedly at one position) into
the stored entries.  A no-op on an already filled matrix, matching the
`if not self.matrix.Filled()` guards in the wrapper. -/
def fillComplete {α : Type} [CommRing α] (m : Crs α) : Crs α :=
  if m.filled then m else ⟨true, m.optimized, [], buildEntries m.log⟩

/-- Number of stored nonzeros reported by `NumGlobalNonzeros`: stored entries
once filled, logged insertions before. -/
def numGlobalNonzeros {α : Type} (m : Crs α) : ℕ :=
  if m.filled then m.entries.length else m.log.length

/-- Modelled from the spec: `InsertGlobalValues` on an unfilled matrix
appends the batch to the insertion log (repeats accumulate at fill time). -/
def insertGlobalValues {α : Type} (m : Crs α) (b : List (MatEntry α)) : Crs α :=
  { m with log := m.log ++ b }

/-- Modelled from the spec: `Scale` multiplies every stored value. -/
def scaleMatrix {α : Type} [CommRing α] (s : α) (m : Crs α) : Crs α :=
  { m with
    entries := m.entries.map (fun e => (e.1, e.2 * s)),
    log := m.log.map (fun e => (e.1, e.2 * s)) }

/-- Modelled from the spec: `EpetraExt.Add(src, False, 1, dst, 1)` as used by
`__iadd__`.  Into a filled destination it accumulates at existing structural
positions with the drop-and-report policy; into an unfilled destination it
inserts all source entries. -/
def epetraExtAdd {α : Type} [CommRing α] (src dst : Crs α) : Crs α × Bool :=
  if dst.filled then
    let t := sumBatch dst.entries src.entries
    ({ dst with entries := t.1 }, t.2)
  else
    ({ dst with log := dst.log ++ src.entries }, false)

/-- Modelled from the spec: `OptimizeStorage` performs its one-time storage
compaction only when it has not run before (internally guarded by the
storage-optimized flag), then records that it has run. -/
def optimizeStorage {α : Type} (m : Crs α) : Crs α :=
  if m.optimized then m else { m with optimized := true }

/-- Embeds `_TrilinosMatrixBase.copy` (trilinosMatrix.py 108-112): force
fill-complete on the receiver (a side effect on `self`), then return a fresh
value-identical matrix.  Result is `(receiver after, returned copy)`. -/
def copyMat {α : Type} [CommRing α] (m : Crs α) : Crs α × Crs α :=
  let m' := fillComplete m
  (m', m')

/-- Embeds `_TrilinosMatrixBase.__getitem__` (115-119): force fill-complete
on the receiver, then read the element.  Result is `(receiver after, value)`. -/
def getItemOp {α : Type} [CommRing α] (m : Crs α) (p : ℕ × ℕ) : Crs α × α :=
  let m' := fillComplete m
  (m', getV m'.entries p)

/-- Embeds `_TrilinosMatrixBase.takeDiagonal` (428-435): force fill-complete,
then extract a diagonal copy of length `n`. -/
def takeDiagonalOp {α : Type} [CommRing α] (m : Crs α) (n : ℕ) : Crs α × List α :=
  let m' := fillComplete m
  (m', (List.range n).map (fun i => getV m'.entries (i, i)))

/-- Embeds `_TrilinosMatrixBase.exportMmf` (491-497): force fill-complete,
then serialize the stored `(row, col, value)` triples. -/
def exportMmfOp {α : Type} [CommRing α] (m : Crs α) : Crs α × List (MatEntry α) :=
  let m' := fillComplete m
  (m', m'.entries)

/-- Embeds `_TrilinosMatrixBase.finalize` (544-547): fill-complete if not yet
filled, then call `OptimizeStorage`.  The second component counts how many
storage-optimization passes Epetra actually performs during the call (0 when
the storage-optimized flag is already set, per the Epetra-internal guard). -/
def finalizeOp {α : Type} [CommRing α] (m : Crs α) : Crs α × ℕ :=
  let m' := if m.filled then m else fillComplete m
  (optimizeStorage m', if m'.optimized then 0 else 1)

/-- Embeds `_TrilinosMatrixBase.put` (328-387).  Filled: direct
`ReplaceGlobalValues`, one warning on a nonzero return code.  Unfilled and
empty: plain insertion.  Unfilled with existing nonzeros: insert zero
placeholders at the target positions, force fill-complete, then replace.
Result is `(matrix after, number of warnings emitted)`. -/
def putOp {α : Type} [CommRing α] (m : Crs α) (b : List (MatEntry α)) : Crs α × ℕ :=
  if m.filled then
    let t := repBatch m.entries b
    ({ m with entries := t.1 }, if t.2 then 1 else 0)
  else if numGlobalNonzeros m = 0 then
    (insertGlobalValues m b, 0)
  else
    let m1 := insertGlobalValues m (b.map (fun e => (e.1, 0)))
    let m2 := if m1.filled then m1 else fillComplete m1
    let t := repBatch m2.entries b
    ({ m2 with entries := t.1 }, if t.2 then 1 else 0)

/-- Embeds `_TrilinosMatrixBase.addAt` (437-472).  Unfilled: plain
insertion.  Filled: `SumIntoGlobalValues`, and exactly one warning when it
returns a nonzero code.  Result is `(matrix after, warnings emitted)`. -/
def addAtOp {α : Type} [CommRing α] (m : Crs α) (b : List (MatEntry α)) : Crs α × ℕ :=
  if m.filled then
    let t := sumBatch m.entries b
    ({ m with entries := t.1 }, if t.2 then 1 else 0)
  else
    (insertGlobalValues m b, 0)

/-- Embeds `_TrilinosMatrixBase.__iadd__` (149-180) for a matrix operand
(`other != 0` always holds there; both call sites in `_add` pass a matrix).
The other operand is fill-completed in place; when the receiver is filled and
the other operand has strictly more nonzeros, both are accumulated into a
fresh unfilled scratch matrix that replaces the receiver wholesale.  Result
is `(receiver after, other after, warnings emitted)`. -/
def iaddOp {α : Type} [CommRing α] (self other : Crs α) : Crs α × Crs α × ℕ :=
  let o := fillComplete other
  if self.filled = true ∧ numGlobalNonzeros o > numGlobalNonzeros self then
    let t1 := epetraExtAdd o emptyCrs
    let t2 := epetraExtAdd self t1.1
    (t2.1, o, (if t1.2 then 1 else 0) + (if t2.2 then 1 else 0))
  else
    let t := epetraExtAdd o self
    (t.1, o, if t.2 then 1 else 0)

/-- Embeds the scalar branch of `_TrilinosMatrixBase.__mul__` (294-299):
`other * sign` copies the operand (fill-completing it in place) and scales
the copy.  Result is `(operand after, scaled copy)`. -/
def mulScalar {α : Type} [CommRing α] (m : Crs α) (s : α) : Crs α × Crs α :=
  let t := copyMat m
  (t.1, scaleMatrix s t.2)

/-- Outcome of `_add`: the two operands after their in-place fill-completes,
the freshly built combination, and the warnings emitted. -/
structure PairOut (α : Type) where
  selfAfter : Crs α
  otherAfter : Crs α
  result : Crs α
  warnings : ℕ
deriving Repr

/-- Embeds `_TrilinosMatrixBase._add` (184-201): fill-complete both operands
in place, copy the operand with strictly more stored nonzeros, scale the
other operand by `sign` and accumulate it into the copy via `__iadd__`.
Note the source applies `sign` to `self` whenever the other operand has at
least as many nonzeros. -/
def addPair {α : Type} [CommRing α] (self other : Crs α) (sign : α) : PairOut α :=
  let s1 := fillComplete self
  let o1 := fillComplete other
  if numGlobalNonzeros s1 > numGlobalNonzeros o1 then
    let c := (copyMat s1).2
    let sc := (mulScalar o1 sign).2
    let t := iaddOp c sc
    ⟨s1, o1, t.1, t.2.2⟩
  else
    let c := (copyMat o1).2
    let sc := (mulScalar s1 sign).2
    let t := iaddOp c sc
    ⟨s1, o1, t.1, t.2.2⟩

/-- Right-hand operand of the Python `+` and `-` operators: a Python integer
scalar or another wrapped matrix. -/
inductive Operand (α : Type) where
  | scalar : ℤ → Operand α
  | mat : Crs α → Operand α

/-- Outcome of `__add__` / `__sub__`: the receiver object itself returned
unchanged, an exception, or a freshly built matrix (with the states of both
operands after their in-place fill-completes and the warnings emitted). -/
inductive AddRes (α : Type) where
  | sameObject : Crs α → AddRes α
  | raised : String → Crs α → AddRes α
  | newMatrix : Crs α → Crs α → Crs α → ℕ → AddRes α

/-- Embeds `_TrilinosMatrixBase.__add__` (203-231): `other is 0` returns the
receiver object itself untouched; any other scalar reaches `_add`, which
fill-completes the receiver and then raises `AttributeError` on
`other.matrix`; a matrix operand runs `_add` with sign 1. -/
def haddOp {α : Type} [CommRing α] (self : Crs α) : Operand α → AddRes α
  | .scalar z =>
    if z = 0 then .sameObject self
    else .raised "AttributeError" (fillComplete self)
  | .mat o =>
    let t := addPair self o 1
    .newMatrix t.selfAfter t.otherAfter t.result t.warnings

/-- Embeds `__radd__ = __add__` (232): reflected addition is the same
function, so `0 + A` also returns `A` itself. -/
def hraddOp {α : Type} [CommRing α] (self : Crs α) (o : Operand α) : AddRes α :=
  haddOp self o

/-- Embeds `_TrilinosMatrixBase.__sub__` (234-238): `other is 0` returns the
receiver itself; otherwise `_add` runs with sign -1. -/
def hsubOp {α : Type} [CommRing α] (self : Crs α) : Operand α → AddRes α
  | .scalar z =>
    if z = 0 then .sameObject self
    else .raised "AttributeError" (fillComplete self)
  | .mat o =>
    let t := addPair self o (-1)
    .newMatrix t.selfAfter t.otherAfter t.result t.warnings

/-- Stored entries of the matrix produced by `__add__` / `__sub__` (the
receiver itself in the `other is 0` case). -/
def resultEntries {α : Type} : AddRes α → List (MatEntry α)
  | .sameObject s => s.entries
  | .raised _ s => s.entries
  | .newMatrix _ _ r _ => r.entries

/-- Observable value of the matrix at position `p`: the stored value once
filled, and the value a fill-complete would store while unfilled. -/
def obsVal {α : Type} [CommRing α] (m : Crs α) (p : ℕ × ℕ) : α :=
  if m.filled then getV m.entries p else entSum m.log p

/-!
Supporting lemmas about the association-list primitives.
-/

theorem memKey_nil {α : Type} (p : ℕ × ℕ) : ¬ memKey ([] : List (MatEntry α)) p := by
  simp [memKey]

theorem memKey_cons {α : Type} (e : MatEntry α) (l : List (MatEntry α)) (p : ℕ × ℕ) :
    memKey (e :: l) p ↔ p = e.1 ∨ memKey l p := by
  simp [memKey]

theorem getV_eq_zero_of_not_memKey {α : Type} [CommRing α]
    {l : List (MatEntry α)} {p : ℕ × ℕ} (h : ¬ memKey l p) : getV l p = 0 := by
  induction l with
  | nil => rfl
  | cons e r ih =>
    rw [memKey_cons] at h
    push_neg at h
    simp [getV, Ne.symm h.1, ih h.2]

theorem entSum_cons {α : Type} [CommRing α] (e : MatEntry α) (l : List (MatEntry α))
    (p : ℕ × ℕ) :
    entSum (e :: l) p = if e.1 = p then e.2 + entSum l p else entSum l p := rfl

theorem entSum_append {α : Type} [CommRing α] (l₁ l₂ : List (MatEntry α)) (p : ℕ × ℕ) :
    entSum (l₁ ++ l₂) p = entSum l₁ p + entSum l₂ p := by
  induction l₁ with
  | nil => simp [entSum]
  | cons e r ih =>
    simp only [List.cons_append, entSum_cons, ih]
    split <;> ring

theorem entSum_eq_zero_of_not_memKey {α : Type} [CommRing α]
    {l : List (MatEntry α)} {p : ℕ × ℕ} (h : ¬ memKey l p) : entSum l p = 0 := by
  induction l with
  | nil => rfl
  | cons e r ih =>
    rw [memKey_cons] at h
    push_neg at h
    simp [entSum_cons, Ne.symm h.1, ih h.2]

theorem entSum_eq_getV_of_nodup {α : Type} [CommRing α]
    {l : List (MatEntry α)} (h : (l.map Prod.fst).Nodup) (p : ℕ × ℕ) :
    entSum l p = getV l p := by
  induction l with
  | nil => rfl
  | cons e r ih =>
    simp only [List.map_cons, List.nodup_cons] at h
    by_cases hp : e.1 = p
    · have hnr : ¬ memKey r p := by
        intro hm
        exact h.1 (hp ▸ hm)
      simp [entSum_cons, getV, hp, entSum_eq_zero_of_not_memKey hnr]
    · simp [entSum_cons, getV, hp, ih h.2]

theorem getV_addEntry {α : Type} [CommRing α] (l : List (MatEntry α)) (e : MatEntry α)
    (p : ℕ × ℕ) :
    getV (addEntry l e) p = getV l p + (if e.1 = p then e.2 else 0) := by
  induction l with
  | nil =>
    simp only [addEntry, getV]
    split <;> simp
  | cons f r ih =>
    simp only [addEntry]
    by_cases hf : f.1 = e.1
    · simp only [if_pos hf]
      by_cases hp : f.1 = p
      · have : e.1 = p := hf ▸ hp
        simp [getV, hp, this]
      · have : ¬ e.1 = p := fun h => hp (hf ▸ h)
        simp [getV, hp, this]
    · simp only [if_neg hf]
      by_cases hp : f.1 = p
      · have : ¬ e.1 = p := fun h => hf (by rw [hp, h])
        simp [getV, hp, this]
      · simp [getV, hp, ih]

theorem keys_addEntry {α : Type} [CommRing α] (l : List (MatEntry α)) (e : MatEntry α) :
    (addEntry l e).map Prod.fst =
      if memKey l e.1 then l.map Prod.fst else l.map Prod.fst ++ [e.1] := by
  induction l with
  | nil => simp [addEntry, memKey]
  | cons f r ih =>
    simp only [addEntry]
    by_cases hf : f.1 = e.1
    · have : memKey (f :: r) e.1 := by rw [memKey_cons]; left; exact hf.symm
      simp [this, hf]
    · have hmem : memKey (f :: r) e.1 ↔ memKey r e.1 := by
        rw [memKey_cons]
        simp [Ne.symm hf]
      by_cases hr : memKey r e.1
      · simp [hf, hmem, hr, ih]
      · simp [hf, hmem, hr, ih]

theorem memKey_def {α : Type} (l : List (MatEntry α)) (p : ℕ × ℕ) :
    memKey l p ↔ p ∈ l.map Prod.fst := Iff.rfl

theorem memKey_addEntry {α : Type} [CommRing α] (l : List (MatEntry α)) (e : MatEntry α)
    (p : ℕ × ℕ) :
    memKey (addEntry l e) p ↔ memKey l p ∨ p = e.1 := by
  by_cases h : memKey l e.1
  · rw [memKey_def, keys_addEntry, if_pos h, ← memKey_def]
    constructor
    · exact fun hm => Or.inl hm
    · rintro (hm | rfl)
      · exact hm
      · exact h
  · rw [memKey_def, keys_addEntry, if_neg h, List.mem_append, List.mem_singleton,
      ← memKey_def]

theorem nodup_keys_addEntry {α : Type} [CommRing α] {l : List (MatEntry α)}
    (h : (l.map Prod.fst).Nodup) (e : MatEntry α) :
    ((addEntry l e).map Prod.fst).Nodup := by
  rw [keys_addEntry]
  by_cases hm : memKey l e.1
  · simpa [hm] using h
  · simp only [if_neg hm]
    rw [List.nodup_append]
    refine ⟨h, List.nodup_singleton _, ?_⟩
    intro a ha hb
    rw [List.mem_singleton] at hb
    subst hb
    exact hm ha

theorem getV_foldl_addEntry {α : Type} [CommRing α] (log : List (MatEntry α)) :
    ∀ (acc : List (MatEntry α)) (p : ℕ × ℕ),
      getV (log.foldl addEntry acc) p = getV acc p + entSum log p := by
  induction log with
  | nil => intro acc p; simp [entSum]
  | cons e b ih =>
    intro acc p
    simp only [List.foldl_cons, ih, getV_addEntry, entSum_cons]
    split <;> ring

theorem getV_buildEntries {α : Type} [CommRing α] (log : List (MatEntry α)) (p : ℕ × ℕ) :
    getV (buildEntries log) p = entSum log p := by
  simpa [getV] using getV_foldl_addEntry log [] p

theorem memKey_foldl_addEntry {α : Type} [CommRing α] (log : List (MatEntry α)) :
    ∀ (acc : List (MatEntry α)) (p : ℕ × ℕ),
      memKey (log.foldl addEntry acc) p ↔ memKey acc p ∨ memKey log p := by
  induction log with
  | nil => intro acc p; simp [memKey]
  | cons e b ih =>
    intro acc p
    simp only [List.foldl_cons, ih, memKey_addEntry, memKey_cons]
    tauto

theorem memKey_buildEntries {α : Type} [CommRing α] (log : List (MatEntry α)) (p : ℕ × ℕ) :
    memKey (buildEntries log) p ↔ memKey log p := by
  have h := memKey_foldl_addEntry log [] p
  simpa [buildEntries, memKey] using h

theorem nodup_keys_foldl_addEntry {α : Type} [CommRing α] (log : List (MatEntry α)) :
    ∀ (acc : List (MatEntry α)), (acc.map Prod.fst).Nodup →
      ((log.foldl addEntry acc).map Prod.fst).Nodup := by
  induction log with
  | nil => intro acc h; simpa using h
  | cons e b ih =>
    intro acc h
    exact ih _ (nodup_keys_addEntry h e)

theorem nodup_keys_buildEntries {α : Type} [CommRing α] (log : List (MatEntry α)) :
    ((buildEntries log).map Prod.fst).Nodup :=
  nodup_keys_foldl_addEntry log [] (by simp)

theorem keys_sumEntry {α : Type} [CommRing α] (l : List (MatEntry α)) (p : ℕ × ℕ) (v : α) :
    (sumEntry l p v).1.map Prod.fst = l.map Prod.fst := by
  induction l with
  | nil => rfl
  | cons f r ih =>
    simp only [sumEntry]
    split <;> simp_all

theorem memKey_sumEntry {α : Type} [CommRing α] (l : List (MatEntry α)) (p q : ℕ × ℕ)
    (v : α) : memKey (sumEntry l p v).1 q ↔ memKey l q := by
  rw [memKey_def, keys_sumEntry, ← memKey_def]

theorem found_sumEntry {α : Type} [CommRing α] (l : List (MatEntry α)) (p : ℕ × ℕ) (v : α) :
    (sumEntry l p v).2 = true ↔ memKey l p := by
  induction l with
  | nil => simp [sumEntry, memKey]
  | cons f r ih =>
    simp only [sumEntry]
    by_cases h : f.1 = p
    · simp [h, memKey_cons]
    · simp only [if_neg h, ih, memKey_cons]
      constructor
      · exact Or.inr
      · rintro (rfl | hm)
        · exact absurd rfl h
        · exact hm

theorem getV_sumEntry {α : Type} [CommRing α] (l : List (MatEntry α)) (p q : ℕ × ℕ)
    (v : α) :
    getV (sumEntry l q v).1 p
      = getV l p + (if p = q ∧ memKey l q then v else 0) := by
  induction l with
  | nil => simp [sumEntry, getV, memKey]
  | cons f r ih =>
    simp only [sumEntry]
    by_cases hq : f.1 = q
    · have hk : memKey (f :: r) q := (memKey_cons f r q).2 (Or.inl hq.symm)
      simp only [if_pos hq]
      by_cases hp : f.1 = p
      · have : p = q := by rw [← hp, hq]
        simp [getV, hp, this, hk]
      · have hpq : ¬ p = q := fun h => hp (by rw [hq, ← h])
        simp [getV, hp, hpq]
    · simp only [if_neg hq]
      by_cases hp : f.1 = p
      · have hpq : ¬ p = q := fun h => hq (by rw [hp, h])
        simp [getV, hp, hpq]
      · have hk : memKey (f :: r) q ↔ memKey r q := by
          rw [memKey_cons]
          constructor
          · rintro (rfl | hm)
            · exact absurd rfl hq
            · exact hm
          · exact Or.inr
        simp [getV, hp, ih, hk]

theorem keys_repEntry {α : Type} [CommRing α] (l : List (MatEntry α)) (p : ℕ × ℕ) (v : α) :
    (repEntry l p v).1.map Prod.fst = l.map Prod.fst := by
  induction l with
  | nil => rfl
  | cons f r ih =>
    simp only [repEntry]
    split <;> simp_all

theorem memKey_repEntry {α : Type} [CommRing α] (l : List (MatEntry α)) (p q : ℕ × ℕ)
    (v : α) : memKey (repEntry l p v).1 q ↔ memKey l q := by
  rw [memKey_def, keys_repEntry, ← memKey_def]

theorem found_repEntry {α : Type} [CommRing α] (l : List (MatEntry α)) (p : ℕ × ℕ) (v : α) :
    (repEntry l p v).2 = true ↔ memKey l p := by
  induction l with
  | nil => simp [repEntry, memKey]
  | cons f r ih =>
    simp only [repEntry]
    by_cases h : f.1 = p
    · simp [h, memKey_cons]
    · simp only [if_neg h, ih, memKey_cons]
      constructor
      · exact Or.inr
      · rintro (rfl | hm)
        · exact absurd rfl h
        · exact hm

theorem getV_repEntry {α : Type} [CommRing α] (l : List (MatEntry α)) (p q : ℕ × ℕ)
    (v : α) :
    getV (repEntry l q v).1 p
      = if p = q ∧ memKey l q then v else getV l p := by
  induction l with
  | nil => simp [repEntry, getV, memKey]
  | cons f r ih =>
    simp only [repEntry]
    by_cases hq : f.1 = q
    · have hk : memKey (f :: r) q := (memKey_cons f r q).2 (Or.inl hq.symm)
      simp only [if_pos hq]
      by_cases hp : f.1 = p
      · have : p = q := by rw [← hp, hq]
        simp [getV, hp, this, hk, hq]
      · have hpq : ¬ p = q := fun h => hp (by rw [hq, ← h])
        have hqp : ¬ q = p := fun h => hpq h.symm
        simp [getV, hp, hpq, hq, hqp]
    · simp only [if_neg hq]
      by_cases hp : f.1 = p
      · have hpq : ¬ p = q := fun h => hq (by rw [hp, h])
        simp [getV, hp, hpq]
      · have hk : memKey (f :: r) q ↔ memKey r q := by
          rw [memKey_cons]
          constructor
          · rintro (rfl | hm)
            · exact absurd rfl hq
            · exact hm
          · exact Or.inr
        simp [getV, hp, ih, hk]

theorem keys_sumBatch {α : Type} [CommRing α] (b : List (MatEntry α)) :
    ∀ (l : List (MatEntry α)), (sumBatch l b).1.map Prod.fst = l.map Prod.fst := by
  induction b with
  | nil => intro l; rfl
  | cons e r ih =>
    intro l
    simp only [sumBatch, ih, keys_sumEntry]

theorem memKey_sumBatch {α : Type} [CommRing α] (b l : List (MatEntry α)) (p : ℕ × ℕ) :
    memKey (sumBatch l b).1 p ↔ memKey l p := by
  rw [memKey_def, keys_sumBatch, ← memKey_def]

theorem getV_sumBatch {α : Type} [CommRing α] (b : List (MatEntry α)) :
    ∀ (l : List (MatEntry α)) (p : ℕ × ℕ),
      getV (sumBatch l b).1 p
        = getV l p + (if memKey l p then entSum b p else 0) := by
  induction b with
  | nil => intro l p; simp [sumBatch, entSum]
  | cons e r ih =>
    intro l p
    simp only [sumBatch, ih, getV_sumEntry, memKey_sumEntry, entSum_cons]
    by_cases hpe : p = e.1
    · subst hpe
      by_cases hm : memKey l e.1
      · simp only [hm, if_true, and_true, if_pos rfl]
        ring
      · simp [hm]
    · have he : ¬ e.1 = p := fun h => hpe h.symm
      by_cases hm : memKey l p
      · simp [hm, hpe, he]
      · simp [hm, hpe]

theorem err_sumBatch {α : Type} [CommRing α] (b : List (MatEntry α)) :
    ∀ (l : List (MatEntry α)),
      (sumBatch l b).2 = true ↔ ∃ e ∈ b, ¬ memKey l e.1 := by
  induction b with
  | nil => intro l; simp [sumBatch]
  | cons e r ih =>
    intro l
    simp only [sumBatch, Bool.or_eq_true, Bool.not_eq_true', ih, memKey_sumEntry,
      List.mem_cons]
    constructor
    · rintro (hf | ⟨f, hf, hm⟩)
      · refine ⟨e, Or.inl rfl, fun hmem => ?_⟩
        have hfound : (sumEntry l e.1 e.2).2 = true := (found_sumEntry l e.1 e.2).2 hmem
        rw [hfound] at hf
        simp at hf
      · exact ⟨f, Or.inr hf, hm⟩
    · rintro ⟨f, hf | hf, hm⟩
      · subst hf
        left
        exact Bool.eq_false_iff.mpr (fun hc => hm ((found_sumEntry l f.1 f.2).1 hc))
      · right
        exact ⟨f, hf, hm⟩

theorem fillComplete_filled {α : Type} [CommRing α] (m : Crs α) :
    (fillComplete m).filled = true := by
  unfold fillComplete
  split <;> simp_all

theorem fillComplete_of_filled {α : Type} [CommRing α] {m : Crs α}
    (h : m.filled = true) : fillComplete m = m := by
  unfold fillComplete
  simp [h]

theorem fillComplete_idem {α : Type} [CommRing α] (m : Crs α) :
    fillComplete (fillComplete m) = fillComplete m :=
  fillComplete_of_filled (fillComplete_filled m)

theorem fillComplete_optimized {α : Type} [CommRing α] (m : Crs α) :
    (fillComplete m).optimized = m.optimized := by
  unfold fillComplete
  split <;> rfl

theorem entries_fillComplete_of_unfilled {α : Type} [CommRing α] {m : Crs α}
    (h : m.filled = false) : (fillComplete m).entries = buildEntries m.log := by
  unfold fillComplete
  simp [h]

theorem obsVal_fillComplete {α : Type} [CommRing α] (m : Crs α) (p : ℕ × ℕ) :
    obsVal (fillComplete m) p = obsVal m p := by
  unfold obsVal
  rcases hf : m.filled with _ | _
  · rw [fillComplete_filled, entries_fillComplete_of_unfilled hf, getV_buildEntries]
    simp [hf]
  · rw [fillComplete_of_filled hf, hf]

theorem nodup_keys_fillComplete {α : Type} [CommRing α] {m : Crs α}
    (h : m.filled = false) : ((fillComplete m).entries.map Prod.fst).Nodup := by
  rw [entries_fillComplete_of_unfilled h]
  exact nodup_keys_buildEntries m.log

theorem filled_scaleMatrix {α : Type} [CommRing α] (s : α) (m : Crs α) :
    (scaleMatrix s m).filled = m.filled := rfl

theorem nnz_scaleMatrix {α : Type} [CommRing α] (s : α) (m : Crs α) :
    numGlobalNonzeros (scaleMatrix s m) = numGlobalNonzeros m := by
  unfold numGlobalNonzeros scaleMatrix
  split <;> simp_all

theorem entries_scaleMatrix {α : Type} [CommRing α] (s : α) (m : Crs α) :
    (scaleMatrix s m).entries = m.entries.map (fun e => (e.1, e.2 * s)) := rfl

theorem getV_map_scale {α : Type} [CommRing α] (l : List (MatEntry α)) (s : α)
    (p : ℕ × ℕ) :
    getV (l.map (fun e => (e.1, e.2 * s))) p = getV l p * s := by
  induction l with
  | nil => simp [getV]
  | cons e r ih =>
    simp only [List.map_cons, getV]
    split <;> simp_all

theorem entSum_map_scale {α : Type} [CommRing α] (l : List (MatEntry α)) (s : α)
    (p : ℕ × ℕ) :
    entSum (l.map (fun e => (e.1, e.2 * s))) p = entSum l p * s := by
  induction l with
  | nil => simp [entSum]
  | cons e r ih =>
    simp only [List.map_cons, entSum_cons, ih]
    split <;> ring

theorem keys_map_scale {α : Type} [CommRing α] (l : List (MatEntry α)) (s : α) :
    (l.map (fun e => (e.1, e.2 * s))).map Prod.fst = l.map Prod.fst := by
  simp [List.map_map]

theorem memKey_append {α : Type} (l₁ l₂ : List (MatEntry α)) (p : ℕ × ℕ) :
    memKey (l₁ ++ l₂) p ↔ memKey l₁ p ∨ memKey l₂ p := by
  simp [memKey]

theorem nnz_of_filled {α : Type} {m : Crs α} (h : m.filled = true) :
    numGlobalNonzeros m = m.entries.length := by
  simp [numGlobalNonzeros, h]

theorem nnz_of_unfilled {α : Type} {m : Crs α} (h : m.filled = false) :
    numGlobalNonzeros m = m.log.length := by
  simp [numGlobalNonzeros, h]

theorem repBatch_single {α : Type} [CommRing α] (l : List (MatEntry α)) (p : ℕ × ℕ)
    (v : α) : (repBatch l [(p, v)]).1 = (repEntry l p v).1 := by
  simp [repBatch]

theorem sumBatch_single {α : Type} [CommRing α] (l : List (MatEntry α)) (p : ℕ × ℕ)
    (v : α) : (sumBatch l [(p, v)]).1 = (sumEntry l p v).1 := by
  simp [sumBatch]

theorem putOp_filled {α : Type} [CommRing α] {m : Crs α} (h : m.filled = true)
    (b : List (MatEntry α)) :
    (putOp m b).1 = { m with entries := (repBatch m.entries b).1 } := by
  simp [putOp, h]

theorem putOp_unfilled_empty {α : Type} [CommRing α] {m : Crs α} (h : m.filled = false)
    (hlog : m.log = []) (b : List (MatEntry α)) :
    (putOp m b).1 = { m with log := b } := by
  simp [putOp, h, nnz_of_unfilled h, hlog, insertGlobalValues]

theorem putOp_unfilled_nonempty {α : Type} [CommRing α] {m : Crs α} (h : m.filled = false)
    (hlog : m.log ≠ []) (b : List (MatEntry α)) :
    (putOp m b).1
      = { filled := true, optimized := m.optimized, log := [],
          entries := (repBatch (buildEntries (m.log ++ b.map (fun e => (e.1, 0)))) b).1 } := by
  have hlen : ¬ m.log.length = 0 := by
    simpa [List.length_eq_zero] using hlog
  simp only [putOp, h, Bool.false_eq_true, if_false, nnz_of_unfilled h, hlen,
    insertGlobalValues]
  simp [fillComplete, h]

theorem addAtOp_filled {α : Type} [CommRing α] {m : Crs α} (h : m.filled = true)
    (b : List (MatEntry α)) :
    addAtOp m b
      = ({ m with entries := (sumBatch m.entries b).1 },
          if (sumBatch m.entries b).2 then 1 else 0) := by
  simp [addAtOp, h]

theorem addAtOp_unfilled {α : Type} [CommRing α] {m : Crs α} (h : m.filled = false)
    (b : List (MatEntry α)) :
    addAtOp m b = (insertGlobalValues m b, 0) := by
  simp [addAtOp, h]

/-!
Claim theorems.
-/

/-- C3: `finalize()` is idempotent.  For every matrix, calling `finalizeOp`
twice yields a state identical to calling it once (same structure, values and
FILLED flag), and the one-time storage-optimization pass is performed at most
once across the two calls. -/
theorem finalize_idempotent {α : Type} [CommRing α] (m : Crs α) :
    (finalizeOp (finalizeOp m).1).1 = (finalizeOp m).1 ∧
      (finalizeOp m).2 + (finalizeOp (finalizeOp m).1).2 ≤ 1 := by
  obtain ⟨f, o, lg, es⟩ := m
  cases f <;> cases o <;>
    simp [finalizeOp, optimizeStorage, fillComplete]

/-- C10: `A + 0`, `0 + A` and `A - 0` (integer literal scalar 0) each return
the receiver object itself — no copy, no value change, no finalize — while
`A + s` for any nonzero scalar raises an `AttributeError` instead of doing
elementwise scalar addition. -/
theorem add_scalar_zero_identity {α : Type} [CommRing α] (m : Crs α) (z : ℤ)
    (hz : z ≠ 0) :
    haddOp m (.scalar 0) = .sameObject m ∧
    hraddOp m (.scalar 0) = .sameObject m ∧
    hsubOp m (.scalar 0) = .sameObject m ∧
    haddOp m (.scalar z) = .raised "AttributeError" (fillComplete m) := by
  refine ⟨?_, ?_, ?_, ?_⟩ <;> simp [haddOp, hraddOp, hsubOp, hz]

/-- Witness for C10 at a concrete matrix and the nonzero scalar 3. -/
theorem add_scalar_zero_identity_witness :
    (3 : ℤ) ≠ 0 ∧
    (haddOp (emptyCrs : Crs ℤ) (.scalar 0) = .sameObject emptyCrs ∧
     hraddOp (emptyCrs : Crs ℤ) (.scalar 0) = .sameObject emptyCrs ∧
     hsubOp (emptyCrs : Crs ℤ) (.scalar 0) = .sameObject emptyCrs ∧
     haddOp (emptyCrs : Crs ℤ) (.scalar 3)
       = .raised "AttributeError" (fillComplete emptyCrs)) :=
  ⟨by decide, add_scalar_zero_identity emptyCrs 3 (by decide)⟩

/-- C7 counterexample: the claim says copy, element extraction, takeDiagonal
and export are the only operations besides an explicit finalize that change
the lifecycle state; but `put` on an UNFILLED matrix with existing nonzeros
(here, one logged entry) flips the matrix to FILLED as well. -/
theorem put_changes_lifecycle_state :
    (⟨false, false, [((0, 0), (3 : ℤ))], []⟩ : Crs ℤ).filled = false ∧
    (putOp (⟨false, false, [((0, 0), (3 : ℤ))], []⟩ : Crs ℤ)
        [((0, 1), 5)]).1.filled = true :=
  ⟨rfl, rfl⟩

/-- C7 (amended): every one of the read operations copy, element extraction,
takeDiagonal and export forces an UNFILLED matrix into the FILLED state as a
side effect; however they are not the only non-finalize operations that
change the lifecycle state — `put` on an UNFILLED matrix with existing
nonzeros also forces the FILLED state (last conjunct). -/
theorem reads_force_finalize {α : Type} [CommRing α] (m : Crs α) (p : ℕ × ℕ) (n : ℕ)
    (b : List (MatEntry α)) (h : m.filled = false) :
    (copyMat m).1.filled = true ∧
    (getItemOp m p).1.filled = true ∧
    (takeDiagonalOp m n).1.filled = true ∧
    (exportMmfOp m).1.filled = true ∧
    (m.log ≠ [] → (putOp m b).1.filled = true) := by
  refine ⟨fillComplete_filled m, fillComplete_filled m, fillComplete_filled m,
    fillComplete_filled m, fun hlog => ?_⟩
  rw [putOp_unfilled_nonempty h hlog]

/-- Witness for C7 (amended) at a concrete UNFILLED matrix. -/
theorem reads_force_finalize_witness :
    (⟨false, false, [((0, 0), (1 : ℤ))], []⟩ : Crs ℤ).filled = false ∧
    ((copyMat (⟨false, false, [((0, 0), (1 : ℤ))], []⟩ : Crs ℤ)).1.filled = true ∧
     (getItemOp (⟨false, false, [((0, 0), (1 : ℤ))], []⟩ : Crs ℤ) (0, 0)).1.filled = true ∧
     (takeDiagonalOp (⟨false, false, [((0, 0), (1 : ℤ))], []⟩ : Crs ℤ) 1).1.filled = true ∧
     (exportMmfOp (⟨false, false, [((0, 0), (1 : ℤ))], []⟩ : Crs ℤ)).1.filled = true ∧
     ((⟨false, false, [((0, 0), (1 : ℤ))], []⟩ : Crs ℤ).log ≠ [] →
       (putOp (⟨false, false, [((0, 0), (1 : ℤ))], []⟩ : Crs ℤ)
          [((0, 1), 2)]).1.filled = true)) :=
  ⟨rfl, reads_force_finalize _ (0, 0) 1 [((0, 1), 2)] rfl⟩

/-- C5 counterexample: on a FILLED matrix whose only structural position is
(0,0) with value 7, two `put` calls at the unstored position (0,1) leave 0
there (both writes are dropped with a warning), not the second value 9; and
two `addAt` calls at (0,0) leave 7 + 1 + 2 = 10, not 1 + 2. -/
theorem put_addAt_counterexample :
    obsVal (putOp (putOp (⟨true, false, [], [((0, 0), (7 : ℤ))]⟩ : Crs ℤ)
        [((0, 1), 5)]).1 [((0, 1), 9)]).1 (0, 1) = 0 ∧ (0 : ℤ) ≠ 9 ∧
    obsVal (addAtOp (addAtOp (⟨true, false, [], [((0, 0), (7 : ℤ))]⟩ : Crs ℤ)
        [((0, 0), 1)]).1 [((0, 0), 2)]).1 (0, 0) = 10 ∧ (10 : ℤ) ≠ 1 + 2 := by
  refine ⟨rfl, by decide, rfl, by decide⟩

theorem getV_putOp_filled {α : Type} [CommRing α] {m : Crs α} (hf : m.filled = true)
    (p : ℕ × ℕ) (v : α) (hmem : memKey m.entries p) :
    (putOp m [(p, v)]).1.filled = true ∧
    memKey (putOp m [(p, v)]).1.entries p ∧
    getV (putOp m [(p, v)]).1.entries p = v := by
  rw [putOp_filled hf]
  dsimp only
  simp only [repBatch_single]
  refine ⟨hf, ?_, ?_⟩
  · rw [memKey_repEntry]; exact hmem
  · rw [getV_repEntry]; simp [hmem]

theorem getV_putOp_placeholder {α : Type} [CommRing α] {m : Crs α} (hf : m.filled = false)
    (hlog : m.log ≠ []) (p : ℕ × ℕ) (v : α) :
    (putOp m [(p, v)]).1.filled = true ∧
    memKey (putOp m [(p, v)]).1.entries p ∧
    getV (putOp m [(p, v)]).1.entries p = v := by
  rw [putOp_unfilled_nonempty hf hlog]
  dsimp only
  simp only [repBatch_single]
  refine ⟨by trivial, ?_, ?_⟩
  · rw [memKey_repEntry, memKey_buildEntries, memKey_append]
    right
    simp [memKey]
  · rw [getV_repEntry]
    simp only [memKey_buildEntries, memKey_append]
    simp [memKey]

theorem addAt_filled_facts {α : Type} [CommRing α] {m : Crs α} (hf : m.filled = true)
    (p : ℕ × ℕ) (v : α) (hmem : memKey m.entries p) :
    (addAtOp m [(p, v)]).1.filled = true ∧
    memKey (addAtOp m [(p, v)]).1.entries p ∧
    getV (addAtOp m [(p, v)]).1.entries p = getV m.entries p + v := by
  rw [addAtOp_filled hf]
  dsimp only
  simp only [sumBatch_single]
  refine ⟨hf, ?_, ?_⟩
  · rw [memKey_sumEntry]; exact hmem
  · rw [getV_sumEntry]; simp [hmem]

/-- C5 (amended): for every matrix and position such that the matrix is
UNFILLED or the position has a structural entry, two successive `put` calls
writing v1 then v2 leave exactly v2 stored (no accumulation) — including the
UNFILLED-with-nonzeros path that inserts zero placeholders, forces finalize
and then replaces — while two successive `addAt` calls add v1 + v2 onto the
previously observable value (0 for a fresh position).  On a FILLED matrix at
a position with no structural entry both operations drop their values. -/
theorem put_replaces_addAt_accumulates {α : Type} [CommRing α] (m : Crs α)
    (p : ℕ × ℕ) (v1 v2 : α) (h : m.filled = false ∨ memKey m.entries p) :
    obsVal (putOp (putOp m [(p, v1)]).1 [(p, v2)]).1 p = v2 ∧
    obsVal (addAtOp (addAtOp m [(p, v1)]).1 [(p, v2)]).1 p = obsVal m p + v1 + v2 := by
  constructor
  · rcases hf : m.filled with _ | _
    · rcases hlog : m.log with _ | ⟨e0, rest⟩
      · -- unfilled and empty: fast-path insert, then the placeholder path
        rw [putOp_unfilled_empty hf hlog]
        have h2 := getV_putOp_placeholder
          (m := { m with log := [(p, v1)] }) hf (by simp) p v2
        simp [obsVal, h2.1, h2.2.2]
      · -- unfilled with existing nonzeros: placeholder path, then replace
        have hlogne : m.log ≠ [] := by simp [hlog]
        have h1 := getV_putOp_placeholder hf hlogne p v1
        have h2 := getV_putOp_filled h1.1 p v2 h1.2.1
        simp [obsVal, h2.1, h2.2.2]
    · -- already filled: direct replace twice
      rcases h with h | hmem
      · rw [hf] at h; cases h
      · have h1 := getV_putOp_filled hf p v1 hmem
        have h2 := getV_putOp_filled h1.1 p v2 h1.2.1
        simp [obsVal, h2.1, h2.2.2]
  · rcases hf : m.filled with _ | _
    · -- unfilled: both calls append to the insertion log
      rw [addAtOp_unfilled hf]
      have hf1 : (insertGlobalValues m [(p, v1)]).filled = false := hf
      rw [addAtOp_unfilled hf1]
      simp only [obsVal, insertGlobalValues, hf, Bool.false_eq_true, if_false]
      rw [entSum_append, entSum_append]
      simp [entSum_cons, entSum, add_assoc]
    · -- filled: SumIntoGlobalValues twice
      rcases h with h | hmem
      · rw [hf] at h; cases h
      · have h1 := addAt_filled_facts hf p v1 hmem
        have h2 := addAt_filled_facts h1.1 p v2 h1.2.1
        simp only [obsVal, h2.1, hf, if_true]
        rw [h2.2.2, h1.2.2]

/-- Witness for C5 (amended) at a fresh UNFILLED matrix. -/
theorem put_replaces_addAt_accumulates_witness :
    ((emptyCrs : Crs ℤ).filled = false ∨ memKey (emptyCrs : Crs ℤ).entries (0, 0)) ∧
    (obsVal (putOp (putOp (emptyCrs : Crs ℤ) [((0, 0), 4)]).1 [((0, 0), 6)]).1 (0, 0) = 6 ∧
     obsVal (addAtOp (addAtOp (emptyCrs : Crs ℤ) [((0, 0), 4)]).1 [((0, 0), 6)]).1 (0, 0)
       = obsVal (emptyCrs : Crs ℤ) (0, 0) + 4 + 6) :=
  ⟨Or.inl rfl, put_replaces_addAt_accumulates emptyCrs (0, 0) 4 6 (Or.inl rfl)⟩

/-- C2: `addAt` on a FILLED matrix with a batch containing at least one
position that has no structural entry completes without raising (it is a
total operation yielding a successor state), emits exactly one warning for
the call, correctly increments every structural position by the batch values
aimed at it, drops the offending values (no new structural position appears),
and leaves the matrix FILLED. -/
theorem addAt_filled_drop_and_warn {α : Type} [CommRing α] (m : Crs α)
    (b : List (MatEntry α)) (hf : m.filled = true)
    (hmiss : ∃ e ∈ b, ¬ memKey m.entries e.1)
    (p q : ℕ × ℕ) (hp : memKey m.entries p) (hq : ¬ memKey m.entries q) :
    (addAtOp m b).2 = 1 ∧
    getV (addAtOp m b).1.entries p = getV m.entries p + entSum b p ∧
    ¬ memKey (addAtOp m b).1.entries q ∧
    (addAtOp m b).1.filled = true := by
  rw [addAtOp_filled hf]
  dsimp only
  refine ⟨?_, ?_, ?_, hf⟩
  · have herr : (sumBatch m.entries b).2 = true := (err_sumBatch b m.entries).2 hmiss
    rw [herr]
    rfl
  · rw [getV_sumBatch]
    simp [hp]
  · rw [memKey_sumBatch]
    exact hq

/-- Witness for C2: a FILLED matrix with one structural entry at (0,0), a
batch targeting (0,0) and the unstored (1,1). -/
theorem addAt_filled_drop_and_warn_witness :
    ((⟨true, false, [], [((0, 0), (3 : ℤ))]⟩ : Crs ℤ).filled = true) ∧
    (∃ e ∈ [((0, 0), (2 : ℤ)), ((1, 1), 5)],
      ¬ memKey (⟨true, false, [], [((0, 0), (3 : ℤ))]⟩ : Crs ℤ).entries e.1) ∧
    memKey (⟨true, false, [], [((0, 0), (3 : ℤ))]⟩ : Crs ℤ).entries (0, 0) ∧
    ¬ memKey (⟨true, false, [], [((0, 0), (3 : ℤ))]⟩ : Crs ℤ).entries (1, 1) ∧
    ((addAtOp (⟨true, false, [], [((0, 0), (3 : ℤ))]⟩ : Crs ℤ)
        [((0, 0), 2), ((1, 1), 5)]).2 = 1 ∧
     getV (addAtOp (⟨true, false, [], [((0, 0), (3 : ℤ))]⟩ : Crs ℤ)
        [((0, 0), 2), ((1, 1), 5)]).1.entries (0, 0)
       = getV (⟨true, false, [], [((0, 0), (3 : ℤ))]⟩ : Crs ℤ).entries (0, 0)
         + entSum [((0, 0), (2 : ℤ)), ((1, 1), 5)] (0, 0) ∧
     ¬ memKey (addAtOp (⟨true, false, [], [((0, 0), (3 : ℤ))]⟩ : Crs ℤ)
        [((0, 0), 2), ((1, 1), 5)]).1.entries (1, 1) ∧
     (addAtOp (⟨true, false, [], [((0, 0), (3 : ℤ))]⟩ : Crs ℤ)
        [((0, 0), 2), ((1, 1), 5)]).1.filled = true) :=
  ⟨rfl, by decide, by decide, by decide,
    addAt_filled_drop_and_warn _ _ rfl (by decide) (0, 0) (1, 1) (by decide) (by decide)⟩

/-- C1: evaluation of `__sub__` at a concrete failing input.  A has the
single stored entry (0,0) = 5 and B has entries (0,0) = 1 and (1,1) = 2, so
the nonzero pattern of A is a structural subset of the pattern of B and B has
more stored nonzeros.  The code computes B - A (entries -4 and 2), not the
claimed A - B (entries 5 - 1 = 4 and 0 - 2 = -2), because `_add` applies the
-1 sign to `self` whenever the other operand has at least as many stored
nonzeros. -/
theorem sub_swapped_operand_behavior :
    getV (resultEntries (hsubOp (⟨false, false, [((0, 0), (5 : ℤ))], []⟩ : Crs ℤ)
        (.mat ⟨false, false, [((0, 0), 1), ((1, 1), 2)], []⟩))) (0, 0) = -4 ∧
    getV (resultEntries (hsubOp (⟨false, false, [((0, 0), (5 : ℤ))], []⟩ : Crs ℤ)
        (.mat ⟨false, false, [((0, 0), 1), ((1, 1), 2)], []⟩))) (1, 1) = 2 ∧
    ((-4 : ℤ) ≠ 5 - 1) ∧ ((2 : ℤ) ≠ 0 - 2) := by
  refine ⟨?_, ?_, by decide, by decide⟩ <;> decide

theorem iaddOp_small_into_filled {α : Type} [CommRing α] (self other : Crs α)
    (hs : self.filled = true) (ho : other.filled = true)
    (hle : numGlobalNonzeros other ≤ numGlobalNonzeros self) :
    (iaddOp self other).1
      = { self with entries := (sumBatch self.entries other.entries).1 } := by
  unfold iaddOp
  rw [fillComplete_of_filled ho]
  rw [if_neg (by
    rintro ⟨-, hgt⟩
    exact absurd hgt (not_lt.mpr hle))]
  unfold epetraExtAdd
  rw [if_pos hs]

theorem addPair_result_le {α : Type} [CommRing α] (X Y : Crs α) (sign : α)
    (h : numGlobalNonzeros (fillComplete X) ≤ numGlobalNonzeros (fillComplete Y)) :
    (addPair X Y sign).result.entries
      = (sumBatch (fillComplete Y).entries
          ((fillComplete X).entries.map (fun e => (e.1, e.2 * sign)))).1 := by
  unfold addPair
  rw [if_neg (not_lt.mpr h)]
  dsimp only [copyMat, mulScalar]
  rw [fillComplete_idem, fillComplete_idem]
  rw [iaddOp_small_into_filled _ _ (fillComplete_filled Y)
    (by rw [filled_scaleMatrix]; exact fillComplete_filled X)
    (by rw [nnz_scaleMatrix]; exact h)]
  rw [entries_scaleMatrix]

theorem addPair_result_gt {α : Type} [CommRing α] (X Y : Crs α) (sign : α)
    (h : numGlobalNonzeros (fillComplete Y) < numGlobalNonzeros (fillComplete X)) :
    (addPair X Y sign).result.entries
      = (sumBatch (fillComplete X).entries
          ((fillComplete Y).entries.map (fun e => (e.1, e.2 * sign)))).1 := by
  unfold addPair
  rw [if_pos h]
  dsimp only [copyMat, mulScalar]
  rw [fillComplete_idem, fillComplete_idem]
  rw [iaddOp_small_into_filled _ _ (fillComplete_filled X)
    (by rw [filled_scaleMatrix]; exact fillComplete_filled Y)
    (by rw [nnz_scaleMatrix]; exact le_of_lt h)]
  rw [entries_scaleMatrix]

/-- C4: when the nonzero pattern of A is a structural subset of the pattern
of B (and patterns are duplicate-free, as they are for every fill-completed
matrix), `A + B` and `B + A` store identical values at every position present
in both results. -/
theorem add_commutes_on_shared_positions {α : Type} [CommRing α] (A B : Crs α)
    (p : ℕ × ℕ)
    (hSub : ∀ q ∈ (fillComplete A).entries.map Prod.fst,
      memKey (fillComplete B).entries q)
    (hA : ((fillComplete A).entries.map Prod.fst).Nodup)
    (hB : ((fillComplete B).entries.map Prod.fst).Nodup)
    (hpA : memKey (addPair A B 1).result.entries p)
    (hpB : memKey (addPair B A 1).result.entries p) :
    getV (addPair A B 1).result.entries p
      = getV (addPair B A 1).result.entries p := by
  have hsubkeys : (fillComplete A).entries.map Prod.fst
      ⊆ (fillComplete B).entries.map Prod.fst := fun q hq => hSub q hq
  have hlen : (fillComplete A).entries.length ≤ (fillComplete B).entries.length := by
    have hsp := List.subperm_of_subset hA hsubkeys
    simpa using hsp.length_le
  have hle : numGlobalNonzeros (fillComplete A) ≤ numGlobalNonzeros (fillComplete B) := by
    rw [nnz_of_filled (fillComplete_filled A), nnz_of_filled (fillComplete_filled B)]
    exact hlen
  have hAB := addPair_result_le A B 1 hle
  rcases lt_or_eq_of_le hle with hlt | heq
  · have hBA := addPair_result_gt B A 1 hlt
    rw [hAB, hBA]
  · have hBA := addPair_result_le B A 1 (le_of_eq heq.symm)
    rw [hAB] at hpA
    rw [hBA] at hpB
    rw [memKey_sumBatch] at hpA hpB
    rw [hAB, hBA, getV_sumBatch, getV_sumBatch, entSum_map_scale, entSum_map_scale]
    simp only [mul_one, if_pos hpA, if_pos hpB]
    rw [entSum_eq_getV_of_nodup hA, entSum_eq_getV_of_nodup hB]
    ring

/-- Witness for C4: A with pattern a strict subset of the pattern of B. -/
theorem add_commutes_on_shared_positions_witness :
    (∀ q ∈ (fillComplete (⟨false, false, [((0, 0), (2 : ℤ))], []⟩ : Crs ℤ)).entries.map Prod.fst,
      memKey (fillComplete (⟨false, false, [((0, 0), (5 : ℤ)), ((1, 1), 7)], []⟩ : Crs ℤ)).entries q) ∧
    ((fillComplete (⟨false, false, [((0, 0), (2 : ℤ))], []⟩ : Crs ℤ)).entries.map Prod.fst).Nodup ∧
    ((fillComplete (⟨false, false, [((0, 0), (5 : ℤ)), ((1, 1), 7)], []⟩ : Crs ℤ)).entries.map Prod.fst).Nodup ∧
    memKey (addPair (⟨false, false, [((0, 0), (2 : ℤ))], []⟩ : Crs ℤ)
      (⟨false, false, [((0, 0), (5 : ℤ)), ((1, 1), 7)], []⟩ : Crs ℤ) 1).result.entries (0, 0) ∧
    memKey (addPair (⟨false, false, [((0, 0), (5 : ℤ)), ((1, 1), 7)], []⟩ : Crs ℤ)
      (⟨false, false, [((0, 0), (2 : ℤ))], []⟩ : Crs ℤ) 1).result.entries (0, 0) ∧
    getV (addPair (⟨false, false, [((0, 0), (2 : ℤ))], []⟩ : Crs ℤ)
      (⟨false, false, [((0, 0), (5 : ℤ)), ((1, 1), 7)], []⟩ : Crs ℤ) 1).result.entries (0, 0)
      = getV (addPair (⟨false, false, [((0, 0), (5 : ℤ)), ((1, 1), 7)], []⟩ : Crs ℤ)
          (⟨false, false, [((0, 0), (2 : ℤ))], []⟩ : Crs ℤ) 1).result.entries (0, 0) :=
  ⟨by decide, by decide, by decide, by decide, by decide,
    add_commutes_on_shared_positions _ _ (0, 0)
      (by decide) (by decide) (by decide) (by decide) (by decide)⟩

/-- Mesh collaborator interface consumed by `_TrilinosMeshMatrix`: global
cell count, the overlapping (halo-extended) global cell IDs visible to this
process, and the non-overlapping global cell IDs owned by this process. -/
structure MeshModel where
  globalNumberOfCells : ℕ
  globalOverlappingCellIDs : List ℕ
  globalNonOverlappingCellIDs : List ℕ

/-- Embeds `_TrilinosMeshMatrix._cellIDsToGlobalRowIDs` (703-706): block `e`
of the result (for each of the `numberOfEquations` equation blocks) is the
cell ID list shifted by `e * globalNumberOfCells`; blocks are concatenated in
row-major order, matching `vstack` plus `flatten`. -/
def cellIDsToGlobalRowIDs (numberOfEquations G : ℕ) (IDs : List ℕ) : List ℕ :=
  (List.range numberOfEquations).flatMap (fun e => IDs.map (fun i => i + e * G))

/-- Mesh-partitioned matrix data needed by the stencil translation. -/
structure MeshMat where
  mesh : MeshModel
  numberOfEquations : ℕ

/-- Embeds the `_globalOverlappingRowIDs` property (739-741). -/
def globalOverlappingRowIDs (mm : MeshMat) : List ℕ :=
  cellIDsToGlobalRowIDs mm.numberOfEquations mm.mesh.globalNumberOfCells
    mm.mesh.globalOverlappingCellIDs

/-- Embeds the `_globalNonOverlappingRowIDs` property (727-729). -/
def globalNonOverlappingRowIDs (mm : MeshMat) : List ℕ :=
  cellIDsToGlobalRowIDs mm.numberOfEquations mm.mesh.globalNumberOfCells
    mm.mesh.globalNonOverlappingCellIDs

/-- Boolean-mask indexing `xs[mask]` of the array runtime: keep the elements
whose mask entry is true. -/
def maskFilter {β : Type} : List β → List Bool → List β
  | x :: xs, b :: bs => if b then x :: maskFilter xs bs else maskFilter xs bs
  | _, _ => []

/-- Embeds `_TrilinosMeshMatrix._getStencil` (769-779): translate both index
arrays through the global overlapping row ID table, build the ownership mask
by membership of the translated rows in the non-overlapping row IDs, and mask
both arrays. -/
def getStencil (mm : MeshMat) (id1 id2 : List ℕ) : List ℕ × List ℕ × List Bool :=
  let GO := globalOverlappingRowIDs mm
  let g1 := id1.map (fun i => GO.getD i 0)
  let g2 := id2.map (fun i => GO.getD i 0)
  let GNO := globalNonOverlappingRowIDs mm
  let mask := g1.map (fun g => decide (g ∈ GNO))
  (maskFilter g1 mask, maskFilter g2 mask, mask)

/-- Embeds `_TrilinosMeshMatrix._globalNonOverlapping` (781-796): run the
stencil translation and subset the value vector by the same mask. -/
def globalNonOverlapping {α : Type} (mm : MeshMat) (vector : List α)
    (id1 id2 : List ℕ) : List α × List ℕ × List ℕ :=
  let t := getStencil mm id1 id2
  (maskFilter vector t.2.2, t.1, t.2.1)

theorem maskFilter_zip3 {α : Type} (pb : ℕ → Bool) :
    ∀ (xs : List α) (ys zs : List ℕ), xs.length = ys.length → ys.length = zs.length →
      (maskFilter xs (ys.map pb)).zip
          ((maskFilter ys (ys.map pb)).zip (maskFilter zs (ys.map pb)))
        = (xs.zip (ys.zip zs)).filter (fun t => pb t.2.1) := by
  intro xs
  induction xs with
  | nil =>
    intro ys zs h1 h2
    cases ys with
    | nil => cases zs with
      | nil => rfl
      | cons z zs => simp at h2
    | cons y ys => simp at h1
  | cons x xs ih =>
    intro ys zs h1 h2
    cases ys with
    | nil => simp at h1
    | cons y ys =>
      cases zs with
      | nil => simp at h2
      | cons z zs =>
        cases hb : pb y with
        | false =>
          simp only [maskFilter, List.map_cons, hb, Bool.false_eq_true, if_false,
            List.zip_cons_cons, List.filter_cons]
          exact ih ys zs (by simpa using h1) (by simpa using h2)
        | true =>
          simp only [maskFilter, List.map_cons, hb, eq_self_iff_true, if_true,
            List.zip_cons_cons, List.filter_cons]
          rw [ih ys zs (by simpa using h1) (by simpa using h2)]

theorem mem_maskFilter_self {β : Type} (pb : β → Bool) :
    ∀ (xs : List β) (r : β), r ∈ maskFilter xs (xs.map pb) → pb r = true := by
  intro xs
  induction xs with
  | nil => intro r hr; simp [maskFilter] at hr
  | cons x xs ih =>
    intro r hr
    simp only [List.map_cons, maskFilter] at hr
    by_cases hb : pb x
    · rw [if_pos hb] at hr
      rcases List.mem_cons.mp hr with rfl | hr2
      · exact hb
      · exact ih r hr2
    · rw [if_neg hb] at hr
      exact ih r hr

/-- C6: the mesh translation maps the local overlapping row and column index
arrays through the overlapping-cell row ID table and retains exactly the
triples whose translated global row belongs to the non-overlapping (owned)
row ID set; values, rows and columns are filtered by one common ownership
mask (stated as an equality of zipped triple lists with a direct filter of
the translated input triples), and every retained row is owned (final
conjunct, so triples with unowned halo rows are dropped). -/
theorem translate_keeps_owned_rows {α : Type} (mm : MeshMat) (v : List α)
    (id1 id2 : List ℕ) (r : ℕ)
    (h1 : v.length = id1.length) (h2 : id1.length = id2.length)
    (hr : r ∈ (globalNonOverlapping mm v id1 id2).2.1) :
    ((globalNonOverlapping mm v id1 id2).1.zip
        ((globalNonOverlapping mm v id1 id2).2.1.zip
          (globalNonOverlapping mm v id1 id2).2.2)
      = (v.zip ((id1.map (fun i => (globalOverlappingRowIDs mm).getD i 0)).zip
            (id2.map (fun i => (globalOverlappingRowIDs mm).getD i 0)))).filter
          (fun t => decide (t.2.1 ∈ globalNonOverlappingRowIDs mm))) ∧
    r ∈ globalNonOverlappingRowIDs mm := by
  constructor
  · have := maskFilter_zip3 (fun g => decide (g ∈ globalNonOverlappingRowIDs mm))
      v (id1.map (fun i => (globalOverlappingRowIDs mm).getD i 0))
      (id2.map (fun i => (globalOverlappingRowIDs mm).getD i 0))
      (by simpa using h1) (by simpa using h2)
    simpa [globalNonOverlapping, getStencil] using this
  · have hmem : r ∈ maskFilter
        (id1.map (fun i => (globalOverlappingRowIDs mm).getD i 0))
        ((id1.map (fun i => (globalOverlappingRowIDs mm).getD i 0)).map
          (fun g => decide (g ∈ globalNonOverlappingRowIDs mm))) := by
      simpa [globalNonOverlapping, getStencil] using hr
    have := mem_maskFilter_self
      (fun g => decide (g ∈ globalNonOverlappingRowIDs mm)) _ r hmem
    exact of_decide_eq_true this

/-- Witness for C6: four cells, two owned, one equation block; the triple
aimed at the halo row is dropped. -/
theorem translate_keeps_owned_rows_witness :
    ((10 : ℤ) :: [20, 30]).length = [0, 1, 2].length ∧
    ([0, 1, 2] : List ℕ).length = [1, 2, 0].length ∧
    (0 : ℕ) ∈ (globalNonOverlapping ⟨⟨4, [0, 1, 2, 3], [0, 1]⟩, 1⟩
      ([10, 20, 30] : List ℤ) [0, 1, 2] [1, 2, 0]).2.1 ∧
    ((globalNonOverlapping ⟨⟨4, [0, 1, 2, 3], [0, 1]⟩, 1⟩
        ([10, 20, 30] : List ℤ) [0, 1, 2] [1, 2, 0]).1.zip
        ((globalNonOverlapping ⟨⟨4, [0, 1, 2, 3], [0, 1]⟩, 1⟩
            ([10, 20, 30] : List ℤ) [0, 1, 2] [1, 2, 0]).2.1.zip
          (globalNonOverlapping ⟨⟨4, [0, 1, 2, 3], [0, 1]⟩, 1⟩
            ([10, 20, 30] : List ℤ) [0, 1, 2] [1, 2, 0]).2.2)
      = (([10, 20, 30] : List ℤ).zip
          ((([0, 1, 2] : List ℕ).map (fun i =>
              (globalOverlappingRowIDs ⟨⟨4, [0, 1, 2, 3], [0, 1]⟩, 1⟩).getD i 0)).zip
            (([1, 2, 0] : List ℕ).map (fun i =>
              (globalOverlappingRowIDs ⟨⟨4, [0, 1, 2, 3], [0, 1]⟩, 1⟩).getD i 0)))).filter
          (fun t => decide
            (t.2.1 ∈ globalNonOverlappingRowIDs ⟨⟨4, [0, 1, 2, 3], [0, 1]⟩, 1⟩))) ∧
    (0 : ℕ) ∈ globalNonOverlappingRowIDs ⟨⟨4, [0, 1, 2, 3], [0, 1]⟩, 1⟩ :=
  ⟨rfl, rfl, by decide,
    translate_keeps_owned_rows ⟨⟨4, [0, 1, 2, 3], [0, 1]⟩, 1⟩
      [10, 20, 30] [0, 1, 2] [1, 2, 0] 0 rfl rfl (by decide)⟩

/-- Lookup of the value held for global ID `g` in a distributed vector piece:
`ids` are the global IDs the process holds, `xs` the matching values. -/
def findVal {α : Type} : List ℕ → List α → ℕ → Option α
  | i :: is, x :: xs, g => if i = g then some x else findVal is xs g
  | _, _, _ => none

/-- Embeds `_numpyToTrilinosVector` (549-569).  Modelled from the spec
(section 4.3) and the Epetra `Import` used there: with one process the
replicated vector is returned unchanged; otherwise process 0 holds the whole
vector through the root map and every process imports the entries at the
global IDs of its piece of `map`, so process `p` ends up with `v` sampled at
`mapIds p`. -/
def numpyToTrilinosVector {α : Type} [CommRing α] (v : List α) (P : ℕ)
    (mapIds : ℕ → List ℕ) : ℕ → List α :=
  if P = 1 then fun _ => v
  else fun p => (mapIds p).map (fun g => v.getD g 0)

/-- Embeds `_trilinosToNumpyVector` (571-586).  Modelled from the spec
(section 4.3) and the Epetra `Import` used there: with one process the
distributed vector is already the replica; otherwise every process builds a
personal map over all global IDs `0 .. n-1` and imports each entry from a
process holding it (zero when no process holds it, as the fresh
`Epetra.Vector` is zero-initialized). -/
def trilinosToNumpyVector {α : Type} [CommRing α] (P n : ℕ) (mapIds : ℕ → List ℕ)
    (dist : ℕ → List α) : List α :=
  if P = 1 then dist 0
  else (List.range n).map (fun g =>
    ((List.range P).findSome? (fun p => findVal (mapIds p) (dist p) g)).getD 0)

theorem findVal_map {α : Type} (h : ℕ → α) :
    ∀ (ids : List ℕ) (g : ℕ),
      findVal ids (ids.map h) g = if g ∈ ids then some (h g) else none := by
  intro ids
  induction ids with
  | nil => intro g; simp [findVal]
  | cons i is ih =>
    intro g
    simp only [List.map_cons, findVal]
    by_cases hig : i = g
    · subst hig
      simp
    · have hgi : ¬ g = i := fun h2 => hig h2.symm
      simp [hig, ih, List.mem_cons, hgi]

theorem findSome?_eq_some_const {β γ : Type} (f : β → Option γ) (c : γ) :
    ∀ (l : List β), (∀ a ∈ l, f a = none ∨ f a = some c) →
      (∃ a ∈ l, f a = some c) → l.findSome? f = some c := by
  intro l
  induction l with
  | nil => intro _ hex; simp at hex
  | cons a l ih =>
    intro hall hex
    rcases hca : f a with _ | b
    · rw [List.findSome?_cons]
      rw [hca]
      apply ih
      · exact fun x hx => hall x (List.mem_cons_of_mem _ hx)
      · rcases hex with ⟨x, hx, hfx⟩
        rcases List.mem_cons.mp hx with rfl | hx2
        · rw [hca] at hfx; cases hfx
        · exact ⟨x, hx2, hfx⟩
    · have hbc : f a = some c := by
        rcases hall a (List.mem_cons_self a l) with hn | hc
        · rw [hca] at hn; cases hn
        · exact hc
      rw [List.findSome?_cons, hbc]

/-- C9: the scatter-then-gather round trip reproduces the replicated vector
exactly, for any process count at least 1 and any map whose pieces cover
every index of the vector; with one process both operations are the identity
(the `P = 1` branches of both functions return their argument unchanged). -/
theorem scatter_gather_roundtrip {α : Type} [CommRing α] (v : List α) (P : ℕ)
    (mapIds : ℕ → List ℕ) (hP : 0 < P)
    (hcov : ∀ g < v.length, ∃ p < P, g ∈ mapIds p) :
    trilinosToNumpyVector P v.length mapIds (numpyToTrilinosVector v P mapIds) = v := by
  by_cases h1 : P = 1
  · simp [trilinosToNumpyVector, numpyToTrilinosVector, h1]
  · unfold trilinosToNumpyVector numpyToTrilinosVector
    rw [if_neg h1, if_neg h1]
    apply List.ext_getElem
    · simp
    · intro g hg1 hg2
      simp only [List.getElem_map, List.getElem_range]
      have hsome : (List.range P).findSome?
          (fun p => findVal (mapIds p) ((mapIds p).map (fun g' => v.getD g' 0)) g)
            = some (v.getD g 0) := by
        apply findSome?_eq_some_const
        · intro p _
          rw [findVal_map]
          by_cases hmem : g ∈ mapIds p
          · right; rw [if_pos hmem]
          · left; rw [if_neg hmem]
        · have hglt : g < v.length := by simpa using hg1
          rcases hcov g hglt with ⟨p, hpP, hmem⟩
          refine ⟨p, List.mem_range.mpr hpP, ?_⟩
          rw [findVal_map, if_pos hmem]
      rw [hsome]
      simp only [Option.getD_some]
      exact List.getD_eq_getElem v 0 hg2

/-- Witness for C9: a three-element vector split across two processes. -/
theorem scatter_gather_roundtrip_witness :
    0 < 2 ∧
    (∀ g < ([10, 20, 30] : List ℤ).length,
      ∃ p < 2, g ∈ (fun p => if p = 0 then [0, 2] else [1]) p) ∧
    trilinosToNumpyVector 2 ([10, 20, 30] : List ℤ).length
        (fun p => if p = 0 then [0, 2] else [1])
        (numpyToTrilinosVector ([10, 20, 30] : List ℤ) 2
          (fun p => if p = 0 then [0, 2] else [1]))
      = [10, 20, 30] :=
  ⟨by decide, by decide,
    scatter_gather_roundtrip [10, 20, 30] 2 (fun p => if p = 0 then [0, 2] else [1])
      (by decide) (by decide)⟩

/-- Concrete scenario builder for the `__add__` doctest (trilinosMatrix.py
203-231): build L by the two `addAt` calls on an empty 3x3 matrix, build the
3x3 identity matrix by one diagonal `addAt` on an empty matrix (exactly as
`_TrilinosIdentityMatrix.__init__`, 915-930, does), and combine them with the
`+` operator.  The values pi and 2.5 are passed as parameters so that the
definition lives in an arbitrary commutative ring. -/
def c8Build {α : Type} [CommRing α] (piv c : α) : AddRes α :=
  haddOp ((addAtOp ((addAtOp (emptyCrs : Crs α)
      [((0, 2), 3), ((0, 1), 10), ((1, 1), piv), ((2, 0), c)]).1)
      [((0, 0), 0), ((1, 1), 0), ((2, 2), 0)]).1)
    (.mat ((addAtOp (emptyCrs : Crs α) [((0, 0), 1), ((1, 1), 1), ((2, 2), 1)]).1))

theorem c8Build_eq {α : Type} [CommRing α] (piv c : α) :
    resultEntries (c8Build piv c)
      = [((0, 2), 3), ((0, 1), 10), ((1, 1), piv + 0 + 1 * 1), ((2, 0), c),
         ((0, 0), 0 + 1 * 1), ((2, 2), 0 + 1 * 1)] := rfl

/-- C8 counterexample: the matrix built by the two `addAt` calls plus the
identity stores 1 + pi at position (1, 1), and 1 + pi differs from the 4 + pi
the claim states for that position. -/
theorem concrete_add_scenario_counterexample :
    getV (resultEntries (c8Build Real.pi ((5 : ℝ) / 2))) (1, 1) = 1 + Real.pi ∧
    (1 + Real.pi ≠ 4 + Real.pi) := by
  constructor
  · rw [c8Build_eq]
    simp [getV, -Prod.mk_one_one, -Prod.mk_zero_zero]
    ring
  · intro hc
    have h14 : (1 : ℝ) = 4 := add_right_cancel hc
    norm_num at h14

/-- C8 (amended): the 3x3 matrix built by
`addAt(values=(3,10,pi,2.5), rows=(0,0,1,2), cols=(2,1,1,0))` followed by
`addAt(values=(0,0,0), rows=(0,1,2), cols=(0,1,2))`, after adding the 3x3
identity via `+`, equals row 0 = (1, 10, 3), row 1 = (0, 1 + pi, 0),
row 2 = (2.5, 0, 1) — with 1 + pi, not 4 + pi, at position (1, 1) —
unstored positions reading as zero. -/
theorem concrete_add_scenario :
    getV (resultEntries (c8Build Real.pi ((5 : ℝ) / 2))) (0, 0) = 1 ∧
    getV (resultEntries (c8Build Real.pi ((5 : ℝ) / 2))) (0, 1) = 10 ∧
    getV (resultEntries (c8Build Real.pi ((5 : ℝ) / 2))) (0, 2) = 3 ∧
    getV (resultEntries (c8Build Real.pi ((5 : ℝ) / 2))) (1, 0) = 0 ∧
    getV (resultEntries (c8Build Real.pi ((5 : ℝ) / 2))) (1, 1) = 1 + Real.pi ∧
    getV (resultEntries (c8Build Real.pi ((5 : ℝ) / 2))) (1, 2) = 0 ∧
    getV (resultEntries (c8Build Real.pi ((5 : ℝ) / 2))) (2, 0) = 5 / 2 ∧
    getV (resultEntries (c8Build Real.pi ((5 : ℝ) / 2))) (2, 1) = 0 ∧
    getV (resultEntries (c8Build Real.pi ((5 : ℝ) / 2))) (2, 2) = 1 := by
  rw [c8Build_eq]
  refine ⟨by simp [getV, -Prod.mk_one_one, -Prod.mk_zero_zero],
    by simp [getV, -Prod.mk_one_one, -Prod.mk_zero_zero],
    by simp [getV, -Prod.mk_one_one, -Prod.mk_zero_zero],
    by simp [getV, -Prod.mk_one_one, -Prod.mk_zero_zero], ?_,
    by simp [getV, -Prod.mk_one_one, -Prod.mk_zero_zero],
    by simp [getV, -Prod.mk_one_one, -Prod.mk_zero_zero],
    by simp [getV, -Prod.mk_one_one, -Prod.mk_zero_zero],
    by simp [getV, -Prod.mk_one_one, -Prod.mk_zero_zero]⟩
  simp [getV, -Prod.mk_one_one, -Prod.mk_zero_zero]
  ring
